import Mathlib

/-
Verification of the TreeSAPP sources against their natural-language
specification.  Each Python function named below is shallowly embedded as an
executable Lean definition, translated line by line from the source file
indicated in its doc comment.  Machine floats appearing in the sources are
modelled by exact rationals; the only float expressions relevant to the
claims (`1.2 * hmm_len` compared against an integer, `len(lst) * 0.75`) are
exact at every input magnitude the programs can produce, as noted in place.
-/

namespace TreeSAPP

/-! ## HMMER_domainTblParser.py -/

/-- One row of a HMMER domain table, keeping exactly the fields that
`scaffold_subalignments` (HMMER_domainTblParser.py 190-243) reads or writes:
query span `start`/`end` (here `end_`, since `end` is reserved), profile span
`pstart`/`pend`, the profile length `hmm_len` (the source stores it as a
string and converts with `int(...)`), the sub-alignment counters `num` and
`of`, and the conditional E-value `ceval` (a float, modelled as a rational). -/
structure HmmMatch where
  start : ℤ
  end_ : ℤ
  pstart : ℤ
  pend : ℤ
  hmm_len : ℤ
  num : ℤ
  of : ℤ
  ceval : ℚ
deriving DecidableEq

/-- Embedding of `detect_orientation(q_i, q_j, r_i, r_j)`
(HMMER_domainTblParser.py 175-187), kept as the same four-way chain of
chained comparisons returning the source's literal strings. -/
def detect_orientation (q_i q_j r_i r_j : ℤ) : String :=
  if q_i ≤ r_i ∧ r_i ≤ q_j then
    if q_i ≤ r_j ∧ r_j ≤ q_j then "supersequence" else "overlap"
  else if r_i ≤ q_i ∧ q_i ≤ r_j then
    if r_i ≤ q_j ∧ q_j ≤ r_j then "subsequence" else "overlap"
  else "satellite"

/-- Membership in `accepted_states = ["overlap", "satellite"]`
(HMMER_domainTblParser.py 209). -/
def acceptedState (s : String) : Bool :=
  s = "overlap" || s = "satellite"

/-- The merge test of `scaffold_subalignments` (HMMER_domainTblParser.py
217-225): both the query-span axis and the profile-span axis must classify as
an accepted state, and the union of the query spans must be shorter than
`1.2 * int(base_aln.hmm_len)`.  The float comparison
`(a_new_end - a_new_start) < 1.2 * hmm_len` is modelled exactly by the
integer inequality `5 * union < 6 * hmm_len`; the two sides can only differ
when the float product `1.2 * hmm_len` strays by at least 1 from `6/5 *
hmm_len`, which needs `hmm_len` beyond 10^13. -/
def scaffoldCond (base proj : HmmMatch) : Bool :=
  acceptedState (detect_orientation base.start base.end_ proj.start proj.end_) &&
  acceptedState (detect_orientation base.pstart base.pend proj.pstart proj.pend) &&
  decide (5 * (max base.end_ proj.end_ - min base.start proj.start) < 6 * base.hmm_len)

/-- The in-place update of `base_aln` performed when a projected alignment is
merged (HMMER_domainTblParser.py 226-233): coordinate union on both axes, the
minimum `num` when `base_aln.num > 1`, `of` decremented by one, and the
minimum conditional E-value. -/
def mergeAln (base proj : HmmMatch) : HmmMatch :=
  ⟨min base.start proj.start, max base.end_ proj.end_,
   min base.pstart proj.pstart, max base.pend proj.pend,
   base.hmm_len,
   if 1 < base.num then min base.num proj.num else base.num,
   base.of - 1,
   if base.ceval ≤ proj.ceval then base.ceval else proj.ceval⟩

/-- The inner `while j` sweep of `scaffold_subalignments`
(HMMER_domainTblParser.py 213-238) for the base at index 0: each later
element is compared against the current base once, in order; a merged element
is popped (`pop(j)` followed by `j -= 1; j += 1` keeps the scan position),
a rejected one is kept.  Returns the final base and the kept elements. -/
def scaffoldGo (base : HmmMatch) : List HmmMatch → HmmMatch × List HmmMatch
  | [] => (base, [])
  | x :: xs =>
    if scaffoldCond base x then scaffoldGo (mergeAln base x) xs
    else
      let r := scaffoldGo base xs
      (r.1, x :: r.2)

/-- Embedding of `scaffold_subalignments(fragmented_alignment_data)`
(HMMER_domainTblParser.py 190-243).  The source initialises `i = j = 0` and
never resets `j` after the inner `while j < len(...)` loop, so once the sweep
for `i = 0` finishes, `j` equals the list length and the inner loop body
never runs again for any later `i`: only the element at index 0 ever acts as
`base_aln`.  The function therefore reduces to one sweep of the tail against
the (mutating) first element. -/
def scaffold_subalignments : List HmmMatch → List HmmMatch
  | [] => []
  | b :: rest =>
    let r := scaffoldGo b rest
    r.1 :: r.2

/-! ## classy.py — ItolJplace and TreeProtein -/

/-- One candidate placement locus of a jplace pquery: the list of numeric
jplace field values (e.g. `[edge_num, likelihood, like_weight_ratio,
distal_length, pendant_length]`) that the source indexes positionally. -/
abbrev Locus := List ℚ

/-- Access `candidate[x]` on a locus.  The theorems below always carry the
bound `x < length` under which this equals the Python indexing (which would
otherwise raise). -/
def luk (c : Locus) (x : ℕ) : ℚ := c.getD x 0

/-- One decoded pquery of a jplace `placements` entry: its `"p"` list of
candidate loci and its `"n"` list of query names.  The source keeps these as
JSON strings and round-trips them through `loads`/`dumps`; the embedding
works on the decoded structure. -/
structure PQuery where
  p : List Locus
  n : List String
deriving DecidableEq

/-- The per-instance state of `ItolJplace` (classy.py 357-387) that its
placement operations read or write: the quoted jplace `fields` descriptor,
the decoded `placements`, the `node_map` from jplace node ids to leaf-name
lists, the marker `name`, and the `classified` flag. -/
structure ItolJplace where
  name : String
  fields : List String
  placements : List PQuery
  node_map : List (ℚ × List String)
  classified : Bool
deriving DecidableEq

/-- Embedding of `ItolJplace.get_field_position_from_jplace_fields`
(classy.py 501-517): scan `fields` for `'"' + field_name + '"'`, counting
misses in `x`; if the scan falls off the end (`x == len(fields)`) the source
warns and returns `None`, otherwise it returns the position.
`List.findIdx` returns the length on a miss, exactly like the loop. -/
def get_field_position_from_jplace_fields (fields : List String) (field_name : String) :
    Option ℕ :=
  let quoted := "\"" ++ field_name ++ "\""
  let x := fields.findIdx (fun field => field = quoted)
  if x = fields.length then none else some x

/-- The per-pquery body of `ItolJplace.filter_min_weight_threshold`
(classy.py 550-582).  For a multi-locus pquery the loci with
`candidate[x] < threshold` are popped; if survivors remain the rebuilt
placement string holds only the `"p"` entry (the `dumps` append sits inside
`if k == 'p'`, so the `"n"` key is dropped), otherwise the object is flagged
unclassified (second component `true`) and the string appended for this
pquery is stale garbage that the caller then discards wholesale.  A
single-locus pquery is appended unchanged. -/
def filterMinPQ (t : ℚ) (x : ℕ) (pq : PQuery) : PQuery × Bool :=
  if 1 < pq.p.length then
    let kept := pq.p.filter (fun c => decide (t ≤ luk c x))
    if 0 < kept.length then (⟨kept, []⟩, false) else (⟨[], []⟩, true)
  else (pq, false)

/-- Embedding of `ItolJplace.filter_min_weight_threshold(threshold=0.1)`
(classy.py 537-585).  When the `like_weight_ratio` position is `None` or `0`
the guard `if not x: return` leaves the object untouched.  Otherwise every
pquery is filtered; if any multi-locus pquery loses all its loci the flag
`classified` becomes `False` and the final `if self.classified:` keeps the
old `placements` (they are replaced only when the object stays classified,
which also means a previously unclassified object never gets the filtered
list). -/
def filter_min_weight_threshold (t : ℚ) (obj : ItolJplace) : ItolJplace :=
  match get_field_position_from_jplace_fields obj.fields "like_weight_ratio" with
  | none => obj
  | some x =>
    if x = 0 then obj
    else
      let results := obj.placements.map (filterMinPQ t x)
      let classified' := obj.classified && !(results.any (fun r => r.2))
      if classified' then { obj with placements := results.map (fun r => r.1) }
      else { obj with classified := false }

/-- The scan of `ItolJplace.filter_max_weight_placement` over
`tmp_placements` (classy.py 630-638): `max_lwr` starts at 0, and whenever
`candidate[x] > max_lwr` the candidate is popped and becomes the singleton
`v`; otherwise the scan advances.  If no candidate ever beats `max_lwr`,
`v` remains the original full list. -/
def maxScan (x : ℕ) : List Locus → ℚ → List Locus → List Locus
  | [], _, v => v
  | c :: rest, maxLwr, v =>
    if maxLwr < luk c x then maxScan x rest (luk c x) [c]
    else maxScan x rest maxLwr v

/-- The per-pquery body of `filter_max_weight_placement` (classy.py
625-644): multi-locus pqueries are rebuilt with the scanned `"p"` list and
the untouched `"n"`, single-locus ones are appended unchanged. -/
def filterMaxPQ (x : ℕ) (pq : PQuery) : PQuery :=
  if 1 < pq.p.length then ⟨maxScan x pq.p 0 pq.p, pq.n⟩ else pq

/-- Embedding of `ItolJplace.filter_max_weight_placement` (classy.py
608-646).  A `None` or `0` field position returns the object untouched;
otherwise pqueries that decode to an empty dict (`if placement:`) are
dropped and the rest are reduced per `filterMaxPQ`. -/
def filter_max_weight_placement (obj : ItolJplace) : ItolJplace :=
  match get_field_position_from_jplace_fields obj.fields "like_weight_ratio" with
  | none => obj
  | some x =>
    if x = 0 then obj
    else
      let kept := obj.placements.filter (fun pq => !(pq.p.isEmpty && pq.n.isEmpty))
      { obj with placements := kept.map (filterMaxPQ x) }

/-- Python's built-in banker's rounding (`round(q)` with no digits): round
half to even, computed from the reduced numerator and denominator with
integer floor division so that it evaluates by kernel reduction.  `f` is
the floor of `q` and `rem = q.num - f * q.den` its nonnegative remainder,
so `q - f` compares with one half exactly as `2 * rem` with `q.den`. -/
def pythonRound (q : ℚ) : ℤ :=
  let f := Int.fdiv q.num q.den
  let rem := q.num - f * q.den
  if 2 * rem < (q.den : ℤ) then f
  else if (q.den : ℤ) < 2 * rem then f + 1
  else if f % 2 = 0 then f else f + 1

/-- Exact rational addition written through `mkRat` (the form the kernel
can evaluate); `qadd_eq_add` below checks it agrees with `+` on ℚ. -/
def qadd (a b : ℚ) : ℚ := mkRat (a.num * b.den + b.num * a.den) (a.den * b.den)

/-- Python's `round(q, 2)`, modelled exactly on rationals. -/
def pyRound2 (q : ℚ) : ℚ := mkRat (pythonRound (mkRat (q.num * 100) q.den)) 100

/-- The per-pquery body of `ItolJplace.harmonize_placements` (classy.py
702-716).  For each jplace key whose value list has more than one element
the list collapses to the single synthetic locus
`[[ancestral_node, v[0][1], round(lwr_sum, 2), 0, 0]]`; the ancestral node
comes from the external C extension `_tree_parser._lowest_common_ancestor`,
which is not part of this repository and is abstracted as the parameter
`lcaFn` applied to the first-leaf names gathered through `node_map`.  A
failed `node_map` lookup or an empty leaf list raises in the source
(`KeyError`/`IndexError`), modelled as `none`; likewise a multi-element
`"n"` value would feed query-name strings into `float()` and `node_map`
and crash, so that case is `none` as well (the source raises either way,
so hoisting this test first leaves the `Option` result unchanged). -/
def harmonizePQ (lcaFn : List String → ℚ) (node_map : List (ℚ × List String))
    (lwr_pos : ℕ) (pq : PQuery) : Option PQuery :=
  if 1 < pq.n.length then none
  else if 1 < pq.p.length then
    match pq.p.mapM (fun locus => (node_map.lookup (luk locus 0)).bind List.head?) with
    | none => none
    | some leaves =>
      some ⟨[[lcaFn leaves, luk (pq.p.headD []) 1,
              pyRound2 (pq.p.foldl (fun acc locus => qadd acc (luk locus lwr_pos)) 0), 0, 0]],
            pq.n⟩
  else some ⟨pq.p, pq.n⟩

/-- Embedding of `ItolJplace.harmonize_placements(treesapp_dir)` (classy.py
687-719).  Before anything else the source renames `"nr"` to `"COGrRNA"`;
it then reads the reference tree from disk (a pure input, folded into
`lcaFn`) and, when the `like_weight_ratio` position is `None` or `0`,
returns with nothing else changed.  Otherwise every pquery is collapsed per
`harmonizePQ`. -/
def harmonize_placements (lcaFn : List String → ℚ) (obj : ItolJplace) :
    Option ItolJplace :=
  let name' := if obj.name = "nr" then "COGrRNA" else obj.name
  match get_field_position_from_jplace_fields obj.fields "like_weight_ratio" with
  | none => some { obj with name := name' }
  | some x =>
    if x = 0 then some { obj with name := name' }
    else
      match obj.placements.mapM (harmonizePQ lcaFn obj.node_map x) with
      | none => none
      | some placements' => some { obj with name := name', placements := placements' }

/-- The default whitespace set of Python's `str.strip()`. -/
def isPySpace (c : Char) : Bool :=
  c = ' ' || c = '\t' || c = '\n' || c = '\r' || c = '\x0b' || c = '\x0c'

/-- Python's `str.strip()` on the character list: drop whitespace from both
ends. -/
def trimChars (l : List Char) : List Char :=
  ((l.dropWhile isPySpace).reverse.dropWhile isPySpace).reverse

/-- Python's `str.strip()`. -/
def pyStrip (s : String) : String := String.mk (trimChars s.data)

/-- Python's `str.split("; ")` on the character list: cut at each leftmost
non-overlapping occurrence of the two-character separator `"; "`. -/
def splitSemiSpace : List Char → List (List Char)
  | [] => [[]]
  | ';' :: ' ' :: rest => [] :: splitSemiSpace rest
  | c :: rest =>
    match splitSemiSpace rest with
    | [] => [[c]]
    | chunk :: chunks => (c :: chunk) :: chunks

/-- Python's `str.split("; ")`, the lineage separator used throughout the
sources. -/
def pySplitSemiSpace (s : String) : List String :=
  (splitSemiSpace s.data).map String.mk

/-- The per-rank agreement test inside `TreeProtein.megan_lca` (classy.py
763-777): `lca_set` collects `lineage[i]` from every lineage long enough
(`contributors` counts them), and the walk continues exactly when the set
has one element and every lineage contributed. -/
def agreedAt (ls : List (List String)) (i : ℕ) : Option String :=
  match ls.filterMap (fun l => l.get? i) with
  | [] => none
  | v :: rest =>
    if rest.length + 1 = ls.length ∧ rest.all (fun w => w = v) then some v else none

/-- The `while i < max_depth` walk of `megan_lca`: ranks are consumed left
to right while `agreedAt` succeeds; the first failure sets `i = max_depth`
and ends the walk. -/
def lcaWalk (ls : List (List String)) : ℕ → ℕ → List String
  | _, 0 => []
  | i, fuel + 1 =>
    match agreedAt ls i with
    | some v => v :: lcaWalk ls (i + 1) fuel
    | none => []

/-- Embedding of `TreeProtein.megan_lca` (classy.py 747-779).  A singleton
`lineage_list` short-circuits to `"; ".join(self.lineage_list[0])`, which in
Python joins the characters of the lineage string.  Otherwise each lineage
is stripped and split on `"; "` (two characters, semicolon space), the walk
runs up to the maximum depth, and the agreed ranks are joined with `"; "`.
An empty `lineage_list` makes `max([])` raise, modelled as `none`. -/
def megan_lca (lineage_list : List String) : Option String :=
  if lineage_list.length = 1 then
    some (String.intercalate "; " ((lineage_list.headD "").toList.map
      (fun c => String.mk [c])))
  else
    match lineage_list with
    | [] => none
    | _ =>
      let listed := lineage_list.map (fun s => pySplitSemiSpace (pyStrip s))
      let maxDepth := (listed.map List.length).foldl max 0
      some (String.intercalate "; " (lcaWalk listed 0 maxDepth))

/-! ## classy.py — attribute scope of ItolJplace

The class body of `ItolJplace` (classy.py 357-387) declares `fields =
list()` at type-level scope, while `__init__` assigns `placements`,
`node_map` and the scalar attributes on `self`.  Python attribute lookup
reads the instance `__dict__` first and falls back to the class attribute;
an assignment `self.fields = ...` creates an instance binding, while an
in-place mutation such as `self.fields.clear()` (classy.py 723) or
`obj.fields.append(v)` mutates whichever list the lookup found.  The model
below carries the one class-level list (`classFields`) and, per instance,
an optional instance-level `fields` binding plus the `__init__`-assigned
state. -/

/-- Instance state of `ItolJplace`: the optional instance-level binding of
`fields`, and the attributes `__init__` (classy.py 363-387) assigns on
`self` that `clear_object`/`correct_decoding` touch.  The scalar attributes
not modelled (`seq_len`, `wtd`, `lwr`, ...) are assigned in `__init__`
exactly like `contig_name` and behave identically. -/
structure PyInstance where
  fieldsShadow : Option (List String)
  placements : List PQuery
  node_map : List (ℚ × List String)
  contig_name : String
  name : String
  tree : String
  metadata : String
  version : String
  lineage_list : List String
  lct : String
  abundance : Option ℚ
deriving DecidableEq

/-- A world of `ItolJplace` instances together with the single type-level
`fields` list of classy.py 361. -/
structure PyWorld where
  classFields : List String
  insts : List PyInstance
deriving DecidableEq

/-- A freshly constructed instance: `__init__` assigns every per-instance
attribute but never `fields`, so the instance has no `fields` binding. -/
def pyInit : PyInstance :=
  ⟨none, [], [], "", "", "", "", "", [], "", none⟩

/-- Attribute lookup `w.insts[i].fields`: the instance binding when present,
else the type-level list. -/
def readFields (w : PyWorld) (i : ℕ) : List String :=
  match (w.insts.get? i).bind (fun inst => inst.fieldsShadow) with
  | some l => l
  | none => w.classFields

/-- Embedding of `ItolJplace.clear_object` (classy.py 721-732) run on
instance `i`: every `__init__`-assigned attribute is cleared in place or
reassigned on the instance, and `self.fields.clear()` empties whichever
list attribute lookup finds — the instance binding when one exists,
otherwise the shared type-level list. -/
def clear_object (w : PyWorld) (i : ℕ) : PyWorld :=
  match w.insts.get? i with
  | none => w
  | some inst =>
    let classFields' := match inst.fieldsShadow with
      | none => []
      | some _ => w.classFields
    let shadow' : Option (List String) := match inst.fieldsShadow with
      | none => none
      | some _ => some []
    ⟨classFields', w.insts.set i ⟨shadow', [], [], "", "", "", "", "", [], "", none⟩⟩

/-- The field-decoding step of `ItolJplace.correct_decoding` (classy.py
474-480): a field not matching `re.match('".*"', field)` — i.e. not starting
with a quote that is closed later — is wrapped by `dumps`. -/
def decodeField (f : String) : String :=
  if (match f.data with
      | '"' :: rest => rest.contains '"'
      | _ => false) then f
  else "\"" ++ f ++ "\""

/-- Embedding of `ItolJplace.correct_decoding` (classy.py 454-481) on
instance `i`.  The placement re-encoding is the identity on the decoded
structure; `self.fields = decoded_fields` assigns a fresh list on the
instance, so the type-level list is never written. -/
def correct_decoding (w : PyWorld) (i : ℕ) : PyWorld :=
  match w.insts.get? i with
  | none => w
  | some inst =>
    let current := inst.fieldsShadow.getD w.classFields
    ⟨w.classFields, w.insts.set i { inst with fieldsShadow := some (current.map decodeField) }⟩

/-- The assignment `itol_datum.fields = [...]` (treesapp.py 4407) on
instance `i`: an instance-level binding, leaving the type-level list
alone. -/
def assignFields (w : PyWorld) (i : ℕ) (v : List String) : PyWorld :=
  match w.insts.get? i with
  | none => w
  | some inst => ⟨w.classFields, w.insts.set i { inst with fieldsShadow := some v }⟩

/-- The in-place mutation `obj.fields.append(v)` on instance `i`: attribute
lookup finds the instance binding when present and otherwise the type-level
list of classy.py 361, and the found list is mutated. -/
def appendField (w : PyWorld) (i : ℕ) (v : String) : PyWorld :=
  match w.insts.get? i with
  | none => w
  | some inst =>
    match inst.fieldsShadow with
    | some l => ⟨w.classFields, w.insts.set i { inst with fieldsShadow := some (l ++ [v]) }⟩
    | none => ⟨w.classFields ++ [v], w.insts⟩

/-! ## create_treesapp_ref_data.py — threshold and estimate_taxonomic_redundancy -/

/-- Python list indexing `l[i]` with negative-index wraparound; out-of-range
raises, modelled as `none`. -/
def pyGet (l : List ℤ) (i : ℤ) : Option ℤ :=
  if i < 0 then
    if 0 ≤ i + l.length then l.get? (i + l.length).toNat else none
  else l.get? i.toNat

/-- Embedding of `threshold(lst, confidence)` (create_treesapp_ref_data.py
697-713): pick `round(len(lst) * q) - 1` in the descending sort, with
`q = 0.51 / 0.75 / 0.9` for low / medium / high.  For the medium branch the
float product `len * 0.75` is exact (0.75 is a dyadic rational), so
Python's banker's `round` coincides with `pythonRound` on `3 * len / 4`;
the low and high constants are modelled by their decimal values. -/
def threshold (lst : List ℤ) (confidence : String) : Option ℤ :=
  let n : ℤ := lst.length
  let index :=
    if confidence = "low" then pythonRound (mkRat (51 * n) 100) - 1
    else if confidence = "medium" then pythonRound (mkRat (3 * n) 4) - 1
    else pythonRound (mkRat (9 * n) 10) - 1
  pyGet (List.insertionSort (fun a b => b ≤ a) lst) index

/-- Increment the count of key `k` in an insertion-ordered association
list, mirroring the `taxa_counts[rank][taxon] += 1` dictionary updates of
create_treesapp_ref_data.py 733-738. -/
def bumpCount (l : List (String × ℤ)) (k : String) : List (String × ℤ) :=
  match l with
  | [] => [(k, 1)]
  | (k0, c) :: rest => if k0 = k then (k0, c + 1) :: rest else (k0, c) :: bumpCount rest k

/-- The taxon-occurrence counts collected at rank depth `d` (1-7) by
`estimate_taxonomic_redundancy` (create_treesapp_ref_data.py 731-738): every
lineage is split on `"; "` and, when it reaches depth `d`, bumps the count
of its taxon at position `d`. -/
def taxaCountsAt (lineages : List String) (d : ℕ) : List (String × ℤ) :=
  lineages.foldl
    (fun acc lin =>
      match (pySplitSemiSpace lin).get? d with
      | some taxon => bumpCount acc taxon
      | none => acc)
    []

/-- The `redundancy` list built for one rank (create_treesapp_ref_data.py
741-744): the counts of `taxa_counts[rank]` in dictionary order. -/
def redundancyAt (lineages : List String) (d : ℕ) : List ℤ :=
  (taxaCountsAt lineages d).map (fun kv => kv.2)

/-- The `rank_depth_map` of create_treesapp_ref_data.py 726. -/
def rankName (d : ℕ) : String :=
  if d = 1 then "Kingdoms"
  else if d = 2 then "Phyla"
  else if d = 3 then "Classes"
  else if d = 4 then "Orders"
  else if d = 5 then "Families"
  else if d = 6 then "Genera"
  else if d = 7 then "Species"
  else ""

/-- The `for depth in rank_depth_map` loop of
`estimate_taxonomic_redundancy` (create_treesapp_ref_data.py 739-747): the
first rank whose medium-confidence threshold equals 1 is reported and the
loop breaks; an empty redundancy list would make `threshold` index an empty
sort and raise, modelled as `none`; if no rank qualifies the initial
`"Strain"` survives. -/
def estimateLoop (lineages : List String) : List ℕ → Option String
  | [] => some "Strain"
  | d :: ds =>
    match threshold (redundancyAt lineages d) "medium" with
    | none => none
    | some v => if v = 1 then some (rankName d) else estimateLoop lineages ds

/-- Embedding of `estimate_taxonomic_redundancy(args, reference_dict)`
(create_treesapp_ref_data.py 716-752), taking the reference lineages in the
`sorted(reference_dict.keys(), key=int)` order the source iterates them. -/
def estimate_taxonomic_redundancy (lineages : List String) : Option String :=
  estimateLoop lineages [1, 2, 3, 4, 5, 6, 7]

/-! ## treesapp.py — write_new_fasta -/

/-- The substitution `re.sub(r'_d+$', repl, s)` of treesapp.py 1139: the
pattern matches an underscore followed by one or more literal `'d'`
characters at the end of the string (there is no backslash before the `d`),
and the whole match is replaced. -/
def subDSuffix (repl : String) (s : String) : String :=
  let rev := s.toList.reverse
  let ds := rev.takeWhile (fun c => c = 'd')
  if 0 < ds.length ∧ rev.get? ds.length = some '_' then
    String.mk ((rev.drop (ds.length + 1)).reverse) ++ repl
  else s

/-- Overwrite-or-insert for the modelled file system: `open(name, 'w')`
truncates, `fsSet fs name ""`. -/
def fsSet (fs : List (String × String)) (k v : String) : List (String × String) :=
  match fs with
  | [] => [(k, v)]
  | (k0, v0) :: rest => if k0 = k then (k0, v) :: rest else (k0, v0) :: fsSet rest k v

/-- Append `v` to the content of open file `k`. -/
def fsAppend (fs : List (String × String)) (k v : String) : List (String × String) :=
  fsSet fs k (((fs.lookup k).getD "") ++ v)

/-- The `headers is None` / `name[1:] in headers` gate of treesapp.py
1143-1147. -/
def headersAllow (headers : Option (List String)) (name : String) : Bool :=
  match headers with
  | none => true
  | some hs => hs.contains (name.drop 1)

/-- The `for name in fasta_dict.keys()` loop of `write_new_fasta`
(treesapp.py 1129-1152), threading the open-file name, the file counter, the
sequence accumulator, the collected `split_files` and the file system.
When `max_seqs` is truthy and the accumulator exceeds it, the current name
is recorded, the counter bumps, the name passes through
`re.sub(r'_d+$', '_' + str(file_counter), fasta_name)` and the (possibly
identical) file is reopened with `'w'`, truncating it. -/
def writeLoop (max_seqs : Option ℕ) (headers : Option (List String)) :
    List (String × String) → List (String × String) → String → ℕ → ℕ →
      List String → List String × List (String × String)
  | [], fs, curName, _, _, split_files => (split_files ++ [curName], fs)
  | (name, seq) :: rest, fs, curName, counter, acc, split_files =>
    let acc' := acc + 1
    let rollover := match max_seqs with
      | some m => decide (0 < m) && decide (m < acc')
      | none => false
    if rollover then
      let split' := split_files ++ [curName]
      let counter' := counter + 1
      let newName := subDSuffix ("_" ++ toString counter') curName
      let fs' := fsSet fs newName ""
      let fs'' := if headersAllow headers name then fsAppend fs' newName (name ++ "\n" ++ seq ++ "\n") else fs'
      writeLoop max_seqs headers rest fs'' newName counter' 1 split'
    else
      let fs' := if headersAllow headers name then fsAppend fs curName (name ++ "\n" ++ seq ++ "\n") else fs
      writeLoop max_seqs headers rest fs' curName counter acc' split_files

/-- Embedding of `write_new_fasta(fasta_dict, fasta_name, max_seqs,
headers)` (treesapp.py 1109-1152) over an initially empty file system,
returning the `split_files` list and the final file contents.  When
`max_seqs is not None` the first opened file is already named
`fasta_name + '_' + str(max_seqs)`. -/
def write_new_fasta (fasta_dict : List (String × String)) (fasta_name : String)
    (max_seqs : Option ℕ) (headers : Option (List String)) :
    List String × List (String × String) :=
  let name0 := match max_seqs with
    | some m => fasta_name ++ "_" ++ toString m
    | none => fasta_name
  writeLoop max_seqs headers fasta_dict (fsSet [] name0 "") name0 0 0 []

/-! ## Concrete data used by witnesses -/

/-- The standard jplace field descriptor (already quoted, as after
`correct_decoding`), placing `like_weight_ratio` at position 2. -/
def stdFields : List String :=
  ["\"edge_num\"", "\"likelihood\"", "\"like_weight_ratio\"",
   "\"distal_length\"", "\"pendant_length\""]

/-- A two-locus pquery with distinct nonnegative likelihood-weight ratios
0.7 and 0.3 at field position 2. -/
def wPQ : PQuery :=
  ⟨[[0, -100, mkRat 7 10, 0, 0], [1, -101, mkRat 3 10, 0, 0]], ["q"]⟩

/-- A placement object holding `wPQ`, with a node map covering both
placement edges. -/
def wObj : ItolJplace :=
  ⟨"mcrA", stdFields, [wPQ], [(0, ["1"]), (1, ["2"])], true⟩

/-- Reference lineages whose rank-1 taxon (Bacteria) occurs twice while
both rank-2 taxa occur once, so the Phyla rank is the first whose medium
threshold equals 1. -/
def wLineages : List String :=
  ["cellular organisms; Bacteria; Proteobacteria",
   "cellular organisms; Bacteria; Firmicutes"]

/-- A two-locus pquery with ratios 0.7 and 0.05: the second locus falls
below the default threshold 0.1 while the first survives. -/
def c2wPQ : PQuery :=
  ⟨[[0, -100, mkRat 7 10, 0, 0], [1, -101, mkRat 1 20, 0, 0]], ["q"]⟩

/-- A classified placement object holding `c2wPQ`. -/
def c2wObj : ItolJplace := ⟨"mcrA", stdFields, [c2wPQ], [], true⟩

/-- An instance with an instance-level `fields` binding, as after the
assignment `itol_datum.fields = [...]` of treesapp.py 4407. -/
def wInstA : PyInstance :=
  ⟨some ["\"edge_num\""], [], [], "", "", "", "", "", [], "", none⟩

/-- A two-instance world: instance 0 carries its own `fields` binding,
instance 1 is freshly constructed. -/
def wPyWorld : PyWorld := ⟨["g"], [wInstA, pyInit]⟩

/-! ## Theorems -/

/-- Helper: the `mkRat` form of rational addition agrees with `+`. -/
theorem qadd_eq_add (a b : ℚ) : qadd a b = a + b := by
  unfold qadd
  have ha : ((a.den : ℤ) : ℚ) ≠ 0 := by
    exact_mod_cast (Nat.cast_ne_zero (R := ℚ)).mpr a.den_nz
  have hb : ((b.den : ℤ) : ℚ) ≠ 0 := by
    exact_mod_cast (Nat.cast_ne_zero (R := ℚ)).mpr b.den_nz
  rw [Rat.mkRat_eq_div]
  conv_rhs => rw [← Rat.num_div_den a, ← Rat.num_div_den b]
  push_cast
  field_simp

/-- Helper: a `filterMap` that loses no element and whose outputs all equal
`v` sends every input to `some v`. -/
theorem filterMap_all_eq {α β : Type} (L : List α) (f : α → Option β) (v : β)
    (hlen : (L.filterMap f).length = L.length)
    (hall : ∀ y ∈ L.filterMap f, y = v) :
    ∀ a ∈ L, f a = some v := by
  induction L with
  | nil => intro a ha; simp at ha
  | cons a rest ih =>
    intro b hb
    rcases hfa : f a with _ | y
    · exfalso
      rw [List.filterMap_cons, hfa] at hlen
      have := List.length_filterMap_le f rest
      simp at hlen
      omega
    · rw [List.filterMap_cons, hfa] at hlen hall
      simp only [List.length_cons, Nat.succ.injEq] at hlen
      rcases List.mem_cons.mp hb with hba | hbr
      · subst hba
        rw [hfa]
        have : y = v := hall y (List.mem_cons_self y _)
        rw [this]
      · exact ih hlen (fun z hz => hall z (List.mem_cons_of_mem y hz)) b hbr

/-- Helper: a successful `agreedAt` means every lineage holds the agreed
value at that rank. -/
theorem agreedAt_mem (ls : List (List String)) (i : ℕ) (v : String)
    (h : agreedAt ls i = some v) :
    ∀ l ∈ ls, l.get? i = some v := by
  unfold agreedAt at h
  rcases hvals : ls.filterMap (fun l => l.get? i) with _ | ⟨v0, r⟩
  · rw [hvals] at h
    exact absurd h (by simp)
  · rw [hvals] at h
    replace h : (if r.length + 1 = ls.length ∧ (r.all fun w => decide (w = v0)) = true
        then some v0 else none) = some v := h
    by_cases hcond : r.length + 1 = ls.length ∧ (r.all fun w => decide (w = v0)) = true
    · rw [if_pos hcond] at h
      obtain ⟨hlen, hall⟩ := hcond
      have hv : v0 = v := Option.some.inj h
      intro l hl
      refine filterMap_all_eq ls (fun l => l.get? i) v ?_ ?_ l hl
      · rw [hvals, List.length_cons, hlen]
      · rw [hvals]
        intro y hy
        rcases List.mem_cons.mp hy with hy0 | hyr
        · rw [hy0, hv]
        · rw [List.all_eq_true] at hall
          have := hall y hyr
          simp at this
          rw [this, hv]
    · rw [if_neg hcond] at h
      exact absurd h (by simp)

/-- C6 (counterexample): the claimed swap symmetry of `detect_orientation`
fails at the concrete interval pair a = [0,10], b = [0,5] — classifying
(a,b) gives "supersequence", so consistency would demand "subsequence" for
(b,a), but (b,a) classifies as "overlap". -/
theorem detect_orientation_swap_fails_at_shared_start :
    detect_orientation 0 10 0 5 = "supersequence" ∧
    ¬ detect_orientation 0 5 0 10 = "subsequence" ∧
    detect_orientation 0 5 0 10 = "overlap" := by
  decide

/-- C6 (amended): for well-formed intervals (start ≤ end) whose start
coordinates differ, classifying (a,b) and (b,a) with `detect_orientation`
is consistent under supersequence ↔ subsequence, overlap ↔ overlap,
satellite ↔ satellite; the symmetry can only break when the two intervals
share their start coordinate. -/
theorem detect_orientation_swap_symmetric (ai aj bi bj : ℤ)
    (ha : ai ≤ aj) (hb : bi ≤ bj) (hne : ai ≠ bi) :
    (detect_orientation ai aj bi bj = "supersequence" ↔
       detect_orientation bi bj ai aj = "subsequence") ∧
    (detect_orientation ai aj bi bj = "subsequence" ↔
       detect_orientation bi bj ai aj = "supersequence") ∧
    (detect_orientation ai aj bi bj = "overlap" ↔
       detect_orientation bi bj ai aj = "overlap") ∧
    (detect_orientation ai aj bi bj = "satellite" ↔
       detect_orientation bi bj ai aj = "satellite") := by
  unfold detect_orientation
  split_ifs <;> first | decide | (exfalso; omega)

/-- C6 (witness): the amended symmetry applied at a = [0,10], b = [2,5]. -/
theorem detect_orientation_swap_symmetric_witness :
    (0 : ℤ) ≤ 10 ∧ (2 : ℤ) ≤ 5 ∧ (0 : ℤ) ≠ 2 ∧
    ((detect_orientation 0 10 2 5 = "supersequence" ↔
        detect_orientation 2 5 0 10 = "subsequence") ∧
     (detect_orientation 0 10 2 5 = "subsequence" ↔
        detect_orientation 2 5 0 10 = "supersequence") ∧
     (detect_orientation 0 10 2 5 = "overlap" ↔
        detect_orientation 2 5 0 10 = "overlap") ∧
     (detect_orientation 0 10 2 5 = "satellite" ↔
        detect_orientation 2 5 0 10 = "satellite")) :=
  ⟨by decide, by decide, by decide,
   detect_orientation_swap_symmetric 0 10 2 5 (by decide) (by decide) (by decide)⟩

/-- C4 (counterexample): scaffolding does not compare every pair of
sub-alignments.  With a first sub-alignment that is a query-span
supersequence of both others, the sweep (whose inner index is never reset)
rejects both comparisons against the base and never compares the pair at
indices 1 and 2, even though that pair satisfies the merge condition — so
the output keeps all three hits where the claim predicts a merge. -/
theorem scaffold_subalignments_misses_later_pair :
    scaffoldCond ⟨10, 50, 1, 40, 100, 1, 3, 1⟩ ⟨45, 90, 38, 80, 100, 1, 3, 1⟩ = true ∧
    scaffold_subalignments
        [⟨0, 200, 0, 200, 100, 1, 3, 1⟩, ⟨10, 50, 1, 40, 100, 1, 3, 1⟩,
         ⟨45, 90, 38, 80, 100, 1, 3, 1⟩] =
      [⟨0, 200, 0, 200, 100, 1, 3, 1⟩, ⟨10, 50, 1, 40, 100, 1, 3, 1⟩,
       ⟨45, 90, 38, 80, 100, 1, 3, 1⟩] := by
  decide

/-- C4 (amended): the scaffolding sweep uses only the first sub-alignment
as base (the inner index is never reset), comparing it in order against
each later one; a comparison merges exactly when both the query-span and
profile-span orientations are "overlap" or "satellite" and the query-span
union is shorter than 1.2 times the base's profile length, and the merge
takes the coordinate union on both axes, the minimum domain index (if
already > 1), decrements the domain count by one, and keeps the minimum
conditional E-value.  The claim's two-hit example merges exactly as stated:
query [10,50]/profile [1,40] with query [45,90]/profile [38,80] at profile
length 100 becomes one hit with start 10, end 90, profile 1 to 80. -/
theorem scaffold_subalignments_pair_merge :
    (∀ h1 h2 : HmmMatch,
       acceptedState (detect_orientation h1.start h1.end_ h2.start h2.end_) = true →
       acceptedState (detect_orientation h1.pstart h1.pend h2.pstart h2.pend) = true →
       5 * (max h1.end_ h2.end_ - min h1.start h2.start) < 6 * h1.hmm_len →
       scaffold_subalignments [h1, h2] =
         [⟨min h1.start h2.start, max h1.end_ h2.end_,
           min h1.pstart h2.pstart, max h1.pend h2.pend, h1.hmm_len,
           if 1 < h1.num then min h1.num h2.num else h1.num,
           h1.of - 1, min h1.ceval h2.ceval⟩]) ∧
    (∀ h1 h2 : HmmMatch, scaffoldCond h1 h2 = false →
       scaffold_subalignments [h1, h2] = [h1, h2]) ∧
    scaffold_subalignments
        [⟨10, 50, 1, 40, 100, 1, 2, mkRat 1 1000⟩, ⟨45, 90, 38, 80, 100, 2, 2, mkRat 1 100000⟩] =
      [⟨10, 90, 1, 80, 100, 1, 1, mkRat 1 100000⟩] := by
  refine ⟨?_, ?_, by decide⟩
  · intro h1 h2 hq hp hl
    have hc : scaffoldCond h1 h2 = true := by
      unfold scaffoldCond
      rw [hq, hp]
      simp only [Bool.true_and]
      exact decide_eq_true hl
    simp [scaffold_subalignments, scaffoldGo, hc, mergeAln, min_def]
  · intro h1 h2 hc
    simp [scaffold_subalignments, scaffoldGo, hc]

/-- C4 (witness): the general pair-merge statement applied to the claim's
concrete example hits. -/
theorem scaffold_subalignments_pair_merge_witness :
    acceptedState (detect_orientation 10 50 45 90) = true ∧
    acceptedState (detect_orientation 1 40 38 80) = true ∧
    5 * (max (50 : ℤ) 90 - min (10 : ℤ) 45) < 6 * 100 ∧
    scaffold_subalignments
        [⟨10, 50, 1, 40, 100, 1, 2, mkRat 1 1000⟩, ⟨45, 90, 38, 80, 100, 2, 2, mkRat 1 100000⟩] =
      [⟨min 10 45, max 50 90, min 1 38, max 40 80, 100,
        if (1 : ℤ) < 1 then min 1 2 else 1, 2 - 1, min (mkRat 1 1000) (mkRat 1 100000)⟩] :=
  ⟨by decide, by decide, by decide,
   scaffold_subalignments_pair_merge.1
     ⟨10, 50, 1, 40, 100, 1, 2, mkRat 1 1000⟩ ⟨45, 90, 38, 80, 100, 2, 2, mkRat 1 100000⟩
     (by decide) (by decide) (by decide)⟩

/-- C5 (counterexample): the output of one scaffolding run is not a fixed
point.  Here the middle sub-alignment is first rejected as a subsequence of
the small base; the base then absorbs the satellite third hit and grows, and
on a second run the previously rejected hit now classifies as overlap and
merges, so the second run shrinks the list from 2 to 1. -/
theorem scaffold_subalignments_not_fixed_point :
    (scaffold_subalignments
        [⟨50, 60, 50, 60, 200, 1, 3, 1⟩, ⟨0, 100, 0, 100, 200, 1, 3, 1⟩,
         ⟨90, 120, 90, 120, 200, 1, 3, 1⟩]).length = 2 ∧
    (scaffold_subalignments (scaffold_subalignments
        [⟨50, 60, 50, 60, 200, 1, 3, 1⟩, ⟨0, 100, 0, 100, 200, 1, 3, 1⟩,
         ⟨90, 120, 90, 120, 200, 1, 3, 1⟩])).length = 1 ∧
    scaffold_subalignments (scaffold_subalignments
        [⟨50, 60, 50, 60, 200, 1, 3, 1⟩, ⟨0, 100, 0, 100, 200, 1, 3, 1⟩,
         ⟨90, 120, 90, 120, 200, 1, 3, 1⟩]) ≠
      scaffold_subalignments
        [⟨50, 60, 50, 60, 200, 1, 3, 1⟩, ⟨0, 100, 0, 100, 200, 1, 3, 1⟩,
         ⟨90, 120, 90, 120, 200, 1, 3, 1⟩] := by
  decide

/-- C5 (amended): re-running the scaffolding merge on its own output
performs no further merges for inputs of at most two sub-alignments (with
at most one comparison there is nothing the single sweep can miss); for
three or more the fixed point can fail, as the counterexample shows. -/
theorem scaffold_subalignments_fixed_point_le_two (l : List HmmMatch)
    (hl : l.length ≤ 2) :
    scaffold_subalignments (scaffold_subalignments l) = scaffold_subalignments l := by
  rcases l with _ | ⟨a, _ | ⟨b, _ | ⟨c, rest⟩⟩⟩
  · rfl
  · rfl
  · by_cases hc : scaffoldCond a b = true
    · simp [scaffold_subalignments, scaffoldGo, hc]
    · have hc' : scaffoldCond a b = false := by
        simpa using hc
      simp [scaffold_subalignments, scaffoldGo, hc']
  · simp only [List.length_cons] at hl
    omega

/-- C5 (witness): the two-element fixed point at the claim's example pair
of hits. -/
theorem scaffold_subalignments_fixed_point_le_two_witness :
    ([⟨10, 50, 1, 40, 100, 1, 2, mkRat 1 1000⟩,
      (⟨45, 90, 38, 80, 100, 2, 2, mkRat 1 100000⟩ : HmmMatch)].length ≤ 2) ∧
    scaffold_subalignments (scaffold_subalignments
        [⟨10, 50, 1, 40, 100, 1, 2, mkRat 1 1000⟩, ⟨45, 90, 38, 80, 100, 2, 2, mkRat 1 100000⟩]) =
      scaffold_subalignments
        [⟨10, 50, 1, 40, 100, 1, 2, mkRat 1 1000⟩, ⟨45, 90, 38, 80, 100, 2, 2, mkRat 1 100000⟩] :=
  ⟨by decide,
   scaffold_subalignments_fixed_point_le_two _ (by decide)⟩

/-- C7 (counterexample): on the claim's literal contributing-lineage list
`["A;B;C", "A;B;D", "A;E;F"]` — semicolons without the following space —
`megan_lca` returns the empty consensus, not `"A"`: the code splits on the
two-character separator `"; "`, so each of these strings parses as a single
rank and the three single-rank lineages already disagree at rank 0. -/
theorem megan_lca_semicolon_only_fails :
    megan_lca ["A;B;C", "A;B;D", "A;E;F"] ≠ some "A" ∧
    megan_lca ["A;B;C", "A;B;D", "A;E;F"] = some "" := by
  constructor
  · decide
  · decide

/-- C7 (amended): with the code's `"; "` separator the example behaves as
the spec describes — `megan_lca ["A; B; C", "A; B; D", "A; E; F"] = "A"` —
and the walk is sound: whenever a rank is accepted into the consensus
(`agreedAt` succeeds), every contributing lineage carries exactly that
value at that rank. -/
theorem megan_lca_consensus_example :
    megan_lca ["A; B; C", "A; B; D", "A; E; F"] = some "A" ∧
    (∀ (ls : List (List String)) (i : ℕ) (v : String),
       agreedAt ls i = some v → ∀ l ∈ ls, l.get? i = some v) := by
  constructor
  · decide
  · exact agreedAt_mem

/-- C7 (witness): the soundness half applied at the concrete split
lineages of the example, rank 0. -/
theorem megan_lca_consensus_example_witness :
    agreedAt [["A", "B", "C"], ["A", "B", "D"], ["A", "E", "F"]] 0 = some "A" ∧
    ∀ l ∈ [["A", "B", "C"], ["A", "B", "D"], ["A", "E", "F"]], l.get? 0 = some "A" :=
  ⟨by decide,
   megan_lca_consensus_example.2 [["A", "B", "C"], ["A", "B", "D"], ["A", "E", "F"]] 0 "A"
     (by decide)⟩

/-- C8: the percentile selector at `"medium"` picks index
`round(len * 0.75) - 1` of the descending sort — for `[5,3,3,3,2,1]` the
index is `round(4.5) - 1 = 3` (banker's rounding) and the value is 3 — and
`estimate_taxonomic_redundancy` reports the shallowest rank (walking depths
1 to 7 in order) whose medium-threshold taxon-occurrence count first
equals 1. -/
theorem threshold_medium_and_lowest_reliable_rank :
    (pythonRound (mkRat (3 * 6) 4) - 1 = 3 ∧
     threshold [5, 3, 3, 3, 2, 1] "medium" = some 3) ∧
    (∀ (lineages : List String) (d : ℕ), 1 ≤ d → d ≤ 7 →
       threshold (redundancyAt lineages d) "medium" = some 1 →
       (∀ e, 1 ≤ e → e < d →
          ∃ v, threshold (redundancyAt lineages e) "medium" = some v ∧ v ≠ 1) →
       estimate_taxonomic_redundancy lineages = some (rankName d)) := by
  refine ⟨⟨by decide, by decide⟩, ?_⟩
  intro lineages d h1 h7 hd hprev
  unfold estimate_taxonomic_redundancy
  interval_cases d
  · simp [estimateLoop, hd]
  · obtain ⟨v1, hv1, hn1⟩ := hprev 1 (by norm_num) (by norm_num)
    simp [estimateLoop, hv1, hn1, hd]
  · obtain ⟨v1, hv1, hn1⟩ := hprev 1 (by norm_num) (by norm_num)
    obtain ⟨v2, hv2, hn2⟩ := hprev 2 (by norm_num) (by norm_num)
    simp [estimateLoop, hv1, hn1, hv2, hn2, hd]
  · obtain ⟨v1, hv1, hn1⟩ := hprev 1 (by norm_num) (by norm_num)
    obtain ⟨v2, hv2, hn2⟩ := hprev 2 (by norm_num) (by norm_num)
    obtain ⟨v3, hv3, hn3⟩ := hprev 3 (by norm_num) (by norm_num)
    simp [estimateLoop, hv1, hn1, hv2, hn2, hv3, hn3, hd]
  · obtain ⟨v1, hv1, hn1⟩ := hprev 1 (by norm_num) (by norm_num)
    obtain ⟨v2, hv2, hn2⟩ := hprev 2 (by norm_num) (by norm_num)
    obtain ⟨v3, hv3, hn3⟩ := hprev 3 (by norm_num) (by norm_num)
    obtain ⟨v4, hv4, hn4⟩ := hprev 4 (by norm_num) (by norm_num)
    simp [estimateLoop, hv1, hn1, hv2, hn2, hv3, hn3, hv4, hn4, hd]
  · obtain ⟨v1, hv1, hn1⟩ := hprev 1 (by norm_num) (by norm_num)
    obtain ⟨v2, hv2, hn2⟩ := hprev 2 (by norm_num) (by norm_num)
    obtain ⟨v3, hv3, hn3⟩ := hprev 3 (by norm_num) (by norm_num)
    obtain ⟨v4, hv4, hn4⟩ := hprev 4 (by norm_num) (by norm_num)
    obtain ⟨v5, hv5, hn5⟩ := hprev 5 (by norm_num) (by norm_num)
    simp [estimateLoop, hv1, hn1, hv2, hn2, hv3, hn3, hv4, hn4, hv5, hn5, hd]
  · obtain ⟨v1, hv1, hn1⟩ := hprev 1 (by norm_num) (by norm_num)
    obtain ⟨v2, hv2, hn2⟩ := hprev 2 (by norm_num) (by norm_num)
    obtain ⟨v3, hv3, hn3⟩ := hprev 3 (by norm_num) (by norm_num)
    obtain ⟨v4, hv4, hn4⟩ := hprev 4 (by norm_num) (by norm_num)
    obtain ⟨v5, hv5, hn5⟩ := hprev 5 (by norm_num) (by norm_num)
    obtain ⟨v6, hv6, hn6⟩ := hprev 6 (by norm_num) (by norm_num)
    simp [estimateLoop, hv1, hn1, hv2, hn2, hv3, hn3, hv4, hn4, hv5, hn5, hv6, hn6, hd]

/-- C8 (witness): the rank-reporting half applied to `wLineages`, whose
Phyla counts `[1, 1]` are the first with medium threshold 1. -/
theorem threshold_medium_and_lowest_reliable_rank_witness :
    (1 : ℕ) ≤ 2 ∧ (2 : ℕ) ≤ 7 ∧
    threshold (redundancyAt wLineages 2) "medium" = some 1 ∧
    estimate_taxonomic_redundancy wLineages = some (rankName 2) :=
  ⟨by norm_num, by norm_num, by decide,
   threshold_medium_and_lowest_reliable_rank.2 wLineages 2 (by norm_num) (by norm_num)
     (by decide)
     (fun e he1 he2 => by
       interval_cases e
       exact ⟨2, by decide, by decide⟩)⟩

/-- C9: the splitting branch of `write_new_fasta` is broken — the claim
describes the documented intent.  With two sequences, `max_seqs = 1` and
base name `"out"`, the first file is `out_1`; at rollover the substitution
`re.sub(r'_d+$', '_1', 'out_1')` does not match the numeric suffix (the
pattern wants literal `'d'` characters, an evident typo for `_\d+$`), so the
very same `out_1` is reopened with mode `'w'` and truncated: the returned
list names one file twice and only the second sequence survives on disk,
contradicting "every input sequence appears in exactly one of the returned
files and no earlier file's content is overwritten". -/
theorem write_new_fasta_reuses_split_name :
    write_new_fasta [(">a", "AA"), (">b", "GG")] "out" (some 1) none =
      (["out_1", "out_1"], [("out_1", ">b\nGG\n")]) ∧
    subDSuffix "_1" "out_1" = "out_1" := by
  constructor
  · decide
  · decide

/-- Helper: a field list whose head is the quoted field name makes
`get_field_position_from_jplace_fields` return position 0. -/
theorem get_field_position_head (fields : List String) (fname : String)
    (h : fields.head? = some ("\"" ++ fname ++ "\"")) :
    get_field_position_from_jplace_fields fields fname = some 0 := by
  rcases fields with _ | ⟨f0, rest⟩
  · exact absurd h (by simp)
  · simp only [List.head?_cons, Option.some.injEq] at h
    unfold get_field_position_from_jplace_fields
    simp [List.findIdx_cons, h]

/-- C10: when the declared jplace field order lists `like_weight_ratio`
first (position 0), the guard `if not x` of each operation treats the
looked-up position exactly like a missing field, so
`filter_min_weight_threshold`, `filter_max_weight_placement` and
`harmonize_placements` all return with the placements (and the classified
flag) completely untouched — no filtering, reduction or harmonization
happens.  (`harmonize_placements` still performs its unrelated initial
`"nr"` → `"COGrRNA"` renaming before the guard.) -/
theorem position_zero_treated_as_missing (obj : ItolJplace) (t : ℚ)
    (lcaFn : List String → ℚ)
    (h : obj.fields.head? = some "\"like_weight_ratio\"") :
    filter_min_weight_threshold t obj = obj ∧
    filter_max_weight_placement obj = obj ∧
    ∃ obj', harmonize_placements lcaFn obj = some obj' ∧
      obj'.placements = obj.placements ∧ obj'.classified = obj.classified ∧
      obj'.fields = obj.fields := by
  have hq : ("\"" ++ "like_weight_ratio" ++ "\"" : String) = "\"like_weight_ratio\"" := by
    decide
  have hx : get_field_position_from_jplace_fields obj.fields "like_weight_ratio" =
      some 0 := by
    apply get_field_position_head
    rw [hq]
    exact h
  refine ⟨?_, ?_, ?_⟩
  · unfold filter_min_weight_threshold
    rw [hx]
    rfl
  · unfold filter_max_weight_placement
    rw [hx]
    rfl
  · unfold harmonize_placements
    rw [hx]
    exact ⟨_, rfl, rfl, rfl, rfl⟩

/-- C10 (witness): the guard at work on a concrete object whose field list
starts with `like_weight_ratio` and whose pquery has two loci that any
working filter would have reduced. -/
theorem position_zero_treated_as_missing_witness :
    (ItolJplace.fields
        ⟨"nr", ["\"like_weight_ratio\"", "\"edge_num\""],
         [⟨[[0, 1, 0, 0, 0], [1, 2, 0, 0, 0]], ["q"]⟩], [], true⟩).head? =
      some "\"like_weight_ratio\"" ∧
    filter_min_weight_threshold (mkRat 1 10)
        ⟨"nr", ["\"like_weight_ratio\"", "\"edge_num\""],
         [⟨[[0, 1, 0, 0, 0], [1, 2, 0, 0, 0]], ["q"]⟩], [], true⟩ =
      ⟨"nr", ["\"like_weight_ratio\"", "\"edge_num\""],
       [⟨[[0, 1, 0, 0, 0], [1, 2, 0, 0, 0]], ["q"]⟩], [], true⟩ ∧
    filter_max_weight_placement
        ⟨"nr", ["\"like_weight_ratio\"", "\"edge_num\""],
         [⟨[[0, 1, 0, 0, 0], [1, 2, 0, 0, 0]], ["q"]⟩], [], true⟩ =
      ⟨"nr", ["\"like_weight_ratio\"", "\"edge_num\""],
       [⟨[[0, 1, 0, 0, 0], [1, 2, 0, 0, 0]], ["q"]⟩], [], true⟩ ∧
    ∃ obj', harmonize_placements (fun _ => 0)
        ⟨"nr", ["\"like_weight_ratio\"", "\"edge_num\""],
         [⟨[[0, 1, 0, 0, 0], [1, 2, 0, 0, 0]], ["q"]⟩], [], true⟩ = some obj' ∧
      obj'.placements =
        (ItolJplace.placements
          ⟨"nr", ["\"like_weight_ratio\"", "\"edge_num\""],
           [⟨[[0, 1, 0, 0, 0], [1, 2, 0, 0, 0]], ["q"]⟩], [], true⟩) ∧
      obj'.classified = true ∧
      obj'.fields = ["\"like_weight_ratio\"", "\"edge_num\""] :=
  ⟨by decide,
   (position_zero_treated_as_missing _ (mkRat 1 10) (fun _ => 0) (by decide)).1,
   (position_zero_treated_as_missing _ (mkRat 1 10) (fun _ => 0) (by decide)).2.1,
   (position_zero_treated_as_missing _ (mkRat 1 10) (fun _ => 0) (by decide)).2.2⟩

/-- Helper: the max-weight scan keeps `v` untouched when no candidate beats
the running maximum. -/
theorem maxScan_const (x : ℕ) (l : List Locus) (maxLwr : ℚ) (v : List Locus)
    (h : ∀ c ∈ l, luk c x ≤ maxLwr) : maxScan x l maxLwr v = v := by
  induction l generalizing maxLwr v with
  | nil => rfl
  | cons c rest ih =>
    unfold maxScan
    rw [if_neg (not_lt.mpr (h c (List.mem_cons_self c rest)))]
    exact ih maxLwr v (fun d hd => h d (List.mem_cons_of_mem c hd))

/-- Helper: as soon as one candidate beats the running maximum, the
max-weight scan returns a singleton holding a candidate at least as large
as every list element (and strictly above the initial maximum). -/
theorem maxScan_single (x : ℕ) (l : List Locus) (maxLwr : ℚ) (v : List Locus)
    (h : ∃ c ∈ l, maxLwr < luk c x) :
    ∃ m, maxScan x l maxLwr v = [m] ∧ m ∈ l ∧ maxLwr < luk m x ∧
      ∀ c ∈ l, luk c x ≤ luk m x := by
  induction l generalizing maxLwr v with
  | nil =>
    obtain ⟨c, hc, _⟩ := h
    exact absurd hc (by simp)
  | cons c rest ih =>
    by_cases hc : maxLwr < luk c x
    · by_cases hr : ∃ d ∈ rest, luk c x < luk d x
      · obtain ⟨m, hm_eq, hm_mem, hm_gt, hm_max⟩ := ih (luk c x) [c] hr
        refine ⟨m, ?_, List.mem_cons_of_mem c hm_mem, lt_trans hc hm_gt, ?_⟩
        · unfold maxScan
          rw [if_pos hc]
          exact hm_eq
        · intro d hd
          rcases List.mem_cons.mp hd with hdc | hdr
          · rw [hdc]
            exact le_of_lt hm_gt
          · exact hm_max d hdr
      · push_neg at hr
        refine ⟨c, ?_, List.mem_cons_self c rest, hc, ?_⟩
        · unfold maxScan
          rw [if_pos hc]
          exact maxScan_const x rest (luk c x) [c] hr
        · intro d hd
          rcases List.mem_cons.mp hd with hdc | hdr
          · rw [hdc]
          · exact hr d hdr
    · obtain ⟨d, hd, hdgt⟩ := h
      rcases List.mem_cons.mp hd with hdc | hdr
      · rw [hdc] at hdgt
        exact absurd hdgt hc
      · obtain ⟨m, hm_eq, hm_mem, hm_gt, hm_max⟩ := ih maxLwr v ⟨d, hdr, hdgt⟩
        refine ⟨m, ?_, List.mem_cons_of_mem c hm_mem, hm_gt, ?_⟩
        · unfold maxScan
          rw [if_neg hc]
          exact hm_eq
        · intro e he
          rcases List.mem_cons.mp he with hec | her
          · rw [hec]
            exact le_of_lt (lt_of_le_of_lt (not_lt.mp hc) hm_gt)
          · exact hm_max e her

/-- Helper: a two-element-or-longer list of loci that are pairwise distinct
and nonnegative at position `x` holds a strictly positive value there. -/
theorem distinct_nonneg_has_pos (x : ℕ) (p : List Locus)
    (hlen : 1 < p.length)
    (hnn : ∀ c ∈ p, 0 ≤ luk c x)
    (hd : p.Pairwise (fun c d => luk c x ≠ luk d x)) :
    ∃ c ∈ p, 0 < luk c x := by
  rcases p with _ | ⟨c, _ | ⟨d, rest⟩⟩
  · simp at hlen
  · simp at hlen
  · have hne : luk c x ≠ luk d x :=
      (List.pairwise_cons.mp hd).1 d (List.mem_cons_self d rest)
    rcases lt_or_eq_of_le (hnn c (List.mem_cons_self c _)) with hcpos | hczero
    · exact ⟨c, List.mem_cons_self c _, hcpos⟩
    · refine ⟨d, List.mem_cons_of_mem c (List.mem_cons_self d rest), ?_⟩
      rcases lt_or_eq_of_le (hnn d (List.mem_cons_of_mem c (List.mem_cons_self d rest)))
        with hdpos | hdzero
      · exact hdpos
      · exact absurd (hczero.symm.trans hdzero) hne

/-- Helper: a successful `harmonizePQ` on a nonempty pquery yields exactly
one placement locus. -/
theorem harmonizePQ_singleton (lcaFn : List String → ℚ)
    (node_map : List (ℚ × List String)) (x : ℕ) (pq pq' : PQuery)
    (hne : pq.p ≠ [])
    (h : harmonizePQ lcaFn node_map x pq = some pq') : pq'.p.length = 1 := by
  unfold harmonizePQ at h
  split at h
  · exact absurd h (by simp)
  · split at h
    · split at h
      · exact absurd h (by simp)
      · have := Option.some.inj h
        rw [← this]
        rfl
    · have := Option.some.inj h
      rw [← this]
      show pq.p.length = 1
      have hpos : 0 < pq.p.length := List.length_pos.mpr hne
      omega

/-- Helper: a successful `Option`-valued `mapM` maps every output back to
some input. -/
theorem mapM_option_mem {α β : Type} (l : List α) (f : α → Option β)
    (l' : List β) (h : l.mapM f = some l') :
    ∀ b ∈ l', ∃ a ∈ l, f a = some b := by
  induction l generalizing l' with
  | nil =>
    simp only [List.mapM_nil, Option.pure_def, Option.some.injEq] at h
    intro b hb
    rw [← h] at hb
    simp at hb
  | cons a rest ih =>
    rw [List.mapM_cons] at h
    rcases hfa : f a with _ | y
    · rw [hfa] at h
      simp at h
    · rw [hfa] at h
      rcases hrest : rest.mapM f with _ | ys
      · rw [hrest] at h
        simp at h
      · rw [hrest] at h
        simp at h
        subst h
        intro b hb
        rcases List.mem_cons.mp hb with hby | hbys
        · exact ⟨a, List.mem_cons_self a rest, by rw [hfa, hby]⟩
        · obtain ⟨a', ha', hfa'⟩ := ih ys hrest b hbys
          exact ⟨a', List.mem_cons_of_mem a ha', hfa'⟩

/-- C1: with the `like_weight_ratio` field found at a nonzero position,
(i) `filter_max_weight_placement` maps each kept (nonempty) pquery through
`filterMaxPQ`; (ii) a pquery with `N ≥ 1` candidate loci carrying distinct
nonnegative likelihood-weight ratios reduces to exactly one locus whose
ratio equals the maximum of the `N`; and (iii) every originally-placed
pquery (nonempty `"p"`) also holds exactly one placement record after the
harmonized (LCA) reduction. -/
theorem max_weight_and_harmonize_single_record (obj : ItolJplace) (x : ℕ)
    (hx : get_field_position_from_jplace_fields obj.fields "like_weight_ratio" = some x)
    (hx0 : x ≠ 0) :
    ((filter_max_weight_placement obj).placements =
       (obj.placements.filter (fun pq => !(pq.p.isEmpty && pq.n.isEmpty))).map
         (filterMaxPQ x)) ∧
    (∀ pq ∈ obj.placements, pq.p ≠ [] →
       (∀ c ∈ pq.p, 0 ≤ luk c x) →
       pq.p.Pairwise (fun c d => luk c x ≠ luk d x) →
       ∃ m, filterMaxPQ x pq = ⟨[m], pq.n⟩ ∧ m ∈ pq.p ∧
         ∀ c ∈ pq.p, luk c x ≤ luk m x) ∧
    (∀ (lcaFn : List String → ℚ) (obj' : ItolJplace),
       (∀ pq ∈ obj.placements, pq.p ≠ []) →
       harmonize_placements lcaFn obj = some obj' →
       ∀ pq' ∈ obj'.placements, pq'.p.length = 1) := by
  refine ⟨?_, ?_, ?_⟩
  · unfold filter_max_weight_placement
    simp only [hx]
    rw [if_neg hx0]
  · intro pq _ hne hnn hdist
    by_cases hlen : 1 < pq.p.length
    · obtain ⟨c, hc, hcpos⟩ := distinct_nonneg_has_pos x pq.p hlen hnn hdist
      obtain ⟨m, hscan, hm_mem, _, hmax⟩ := maxScan_single x pq.p 0 pq.p ⟨c, hc, hcpos⟩
      refine ⟨m, ?_, hm_mem, hmax⟩
      unfold filterMaxPQ
      rw [if_pos hlen, hscan]
    · have hpos : 0 < pq.p.length := List.length_pos.mpr hne
      have h1 : pq.p.length = 1 := by omega
      rcases hp : pq.p with _ | ⟨c, rest⟩
      · exact absurd hp hne
      · rw [hp] at h1
        simp only [List.length_cons, Nat.succ.injEq] at h1
        have hrest : rest = [] := List.length_eq_zero.mp h1
        subst hrest
        refine ⟨c, ?_, List.mem_cons_self c [], ?_⟩
        · unfold filterMaxPQ
          rw [if_neg hlen]
          calc pq = ⟨pq.p, pq.n⟩ := rfl
          _ = ⟨[c], pq.n⟩ := by rw [hp]
        · intro d hd
          have hdc : d = c := by simpa using hd
          exact le_of_eq (by rw [hdc])
  · intro lcaFn obj' hall h
    unfold harmonize_placements at h
    simp only [hx] at h
    rw [if_neg hx0] at h
    rcases hmm : obj.placements.mapM (harmonizePQ lcaFn obj.node_map x) with _ | pl
    · rw [hmm] at h
      exact absurd h (by simp)
    · rw [hmm] at h
      have hpl : obj'.placements = pl := by
        have := Option.some.inj h
        rw [← this]
      intro pq' hmem
      rw [hpl] at hmem
      obtain ⟨pq, hpq_mem, hpq_eq⟩ := mapM_option_mem _ _ _ hmm pq' hmem
      exact harmonizePQ_singleton lcaFn obj.node_map x pq pq' (hall pq hpq_mem) hpq_eq

/-- C1 (witness): the reduction applied to `wObj`, whose single pquery has
ratios 0.7 and 0.3 at position 2; max-weight reduction leaves one locus of
maximal ratio and harmonization leaves one placement record. -/
theorem max_weight_and_harmonize_single_record_witness :
    get_field_position_from_jplace_fields stdFields "like_weight_ratio" = some 2 ∧
    (∃ m, filterMaxPQ 2 wPQ = ⟨[m], wPQ.n⟩ ∧ m ∈ wPQ.p ∧
       ∀ c ∈ wPQ.p, luk c 2 ≤ luk m 2) ∧
    (∀ pq' ∈ (ItolJplace.placements
        ⟨"mcrA", stdFields, [⟨[[99, -100, 1, 0, 0]], ["q"]⟩],
         [(0, ["1"]), (1, ["2"])], true⟩), pq'.p.length = 1) :=
  ⟨by decide,
   (max_weight_and_harmonize_single_record wObj 2 (by decide) (by decide)).2.1 wPQ
     (by decide) (by decide) (by decide) (by decide),
   (max_weight_and_harmonize_single_record wObj 2 (by decide) (by decide)).2.2
     (fun _ => 99) _ (by decide) (by decide)⟩

/-- C2 (counterexample): minimum-weight filtering does not drop a
below-threshold locus of a single-locus pquery and does not mark the query
unclassified although all of its (one) loci are below the threshold — the
source only filters when `len(placement["p"]) > 1`.  Here the only locus
has ratio 0.05 < 0.1 yet survives, and the object stays classified. -/
theorem filter_min_keeps_single_low_locus :
    (filter_min_weight_threshold (mkRat 1 10)
        ⟨"mcrA", stdFields, [⟨[[0, -100, mkRat 1 20, 0, 0]], ["q"]⟩], [], true⟩).placements =
      [⟨[[0, -100, mkRat 1 20, 0, 0]], ["q"]⟩] ∧
    (filter_min_weight_threshold (mkRat 1 10)
        ⟨"mcrA", stdFields, [⟨[[0, -100, mkRat 1 20, 0, 0]], ["q"]⟩], [], true⟩).classified =
      true ∧
    mkRat 1 20 < mkRat 1 10 := by
  refine ⟨by decide, by decide, by decide⟩

/-- C2 (amended): for a classified object holding one multi-locus pquery
(N ≥ 2, the case the source filters) with `like_weight_ratio` at a nonzero
position: when at least one locus reaches the threshold, exactly the loci
with ratio below `t` are dropped (every survivor has ratio ≥ t) and the
query stays classified; when all N loci are below `t`, the query is marked
unclassified and the placements are left unchanged.  Single-locus pqueries
are never filtered (see the counterexample). -/
theorem filter_min_multi_locus (obj : ItolJplace) (x : ℕ) (t : ℚ) (pq : PQuery)
    (hx : get_field_position_from_jplace_fields obj.fields "like_weight_ratio" = some x)
    (hx0 : x ≠ 0)
    (hp : obj.placements = [pq]) (hcl : obj.classified = true)
    (hN : 1 < pq.p.length) :
    ((∃ c ∈ pq.p, t ≤ luk c x) →
       (filter_min_weight_threshold t obj).placements =
         [⟨pq.p.filter (fun c => decide (t ≤ luk c x)), []⟩] ∧
       (filter_min_weight_threshold t obj).classified = true ∧
       ∀ pq' ∈ (filter_min_weight_threshold t obj).placements,
         ∀ c ∈ pq'.p, t ≤ luk c x) ∧
    ((∀ c ∈ pq.p, luk c x < t) →
       (filter_min_weight_threshold t obj).placements = obj.placements ∧
       (filter_min_weight_threshold t obj).classified = false) := by
  constructor
  · rintro ⟨c, hc, hct⟩
    have hkept_pos : 0 < (pq.p.filter (fun c => decide (t ≤ luk c x))).length := by
      apply List.length_pos.mpr
      intro hnil
      exact absurd (decide_eq_true hct) (List.filter_eq_nil_iff.mp hnil c hc)
    have hfm : filterMinPQ t x pq =
        (⟨pq.p.filter (fun c => decide (t ≤ luk c x)), []⟩, false) := by
      unfold filterMinPQ
      rw [if_pos hN, if_pos hkept_pos]
    have hobj : filter_min_weight_threshold t obj =
        { obj with placements := [⟨pq.p.filter (fun c => decide (t ≤ luk c x)), []⟩] } := by
      unfold filter_min_weight_threshold
      simp only [hx]
      rw [if_neg hx0]
      simp only [hp, List.map_cons, List.map_nil, hfm, List.any_cons, List.any_nil, hcl]
      simp
    refine ⟨by rw [hobj], by rw [hobj]; exact hcl, ?_⟩
    rw [hobj]
    intro pq' hmem c' hc'
    have : pq' = ⟨pq.p.filter (fun c => decide (t ≤ luk c x)), []⟩ := by
      simpa using hmem
    rw [this] at hc'
    exact of_decide_eq_true (List.mem_filter.mp hc').2
  · intro hall
    have hkept_nil : pq.p.filter (fun c => decide (t ≤ luk c x)) = [] := by
      apply List.filter_eq_nil_iff.mpr
      intro a ha
      simp only [decide_eq_true_eq]
      exact not_le.mpr (hall a ha)
    have hfm : filterMinPQ t x pq = (⟨[], []⟩, true) := by
      unfold filterMinPQ
      rw [if_pos hN]
      rw [hkept_nil]
      rfl
    have hobj : filter_min_weight_threshold t obj = { obj with classified := false } := by
      unfold filter_min_weight_threshold
      simp only [hx]
      rw [if_neg hx0]
      simp only [hp, List.map_cons, List.map_nil, hfm, List.any_cons, List.any_nil]
      simp
    rw [hobj, hp]
    exact ⟨rfl, rfl⟩

/-- C2 (witness): the amended filtering applied to `c2wObj` (loci 0.7 and
0.05 at threshold 0.1): the below-threshold locus is dropped, the survivor
remains, the query stays classified. -/
theorem filter_min_multi_locus_witness :
    1 < c2wPQ.p.length ∧
    c2wPQ.p.filter (fun c => decide (mkRat 1 10 ≤ luk c 2)) =
      [[0, -100, mkRat 7 10, 0, 0]] ∧
    (filter_min_weight_threshold (mkRat 1 10) c2wObj).placements =
      [⟨c2wPQ.p.filter (fun c => decide (mkRat 1 10 ≤ luk c 2)), []⟩] ∧
    (filter_min_weight_threshold (mkRat 1 10) c2wObj).classified = true :=
  ⟨by decide, by decide,
   ((filter_min_multi_locus c2wObj 2 (mkRat 1 10) c2wPQ (by decide) (by decide) rfl rfl
       (by decide)).1 ⟨[0, -100, mkRat 7 10, 0, 0], by decide, by decide⟩).1,
   ((filter_min_multi_locus c2wObj 2 (mkRat 1 10) c2wPQ (by decide) (by decide) rfl rfl
       (by decide)).1 ⟨[0, -100, mkRat 7 10, 0, 0], by decide, by decide⟩).2.1⟩

/-- Helper: setting index `i` of a list leaves every other index's lookup
unchanged. -/
theorem get?_set_ne {α : Type} (l : List α) (i j : ℕ) (a : α) (h : i ≠ j) :
    (l.set i a).get? j = l.get? j := by
  induction l generalizing i j with
  | nil => rfl
  | cons b rest ih =>
    cases i with
    | zero =>
      cases j with
      | zero => exact absurd rfl h
      | succ j' => rfl
    | succ i' =>
      cases j with
      | zero => rfl
      | succ j' =>
        show (rest.set i' a).get? j' = rest.get? j'
        exact ih i' j' (fun he => h (by rw [he]))

/-- C3 (counterexample): `fields` is still declared at type-level scope
(classy.py 361), not per-instance.  In a world of two freshly constructed
instances, an in-place mutation through instance 0 — `obj.fields.append`
lands on the shared class list, as does `clear_object`'s `fields.clear()` —
changes what instance 1 observes as its `fields`: it reads `[]`, then
`["f"]` after the append through instance 0, then `[]` again after
`clear_object` on instance 0. -/
theorem itoljplace_fields_bleed_across_instances :
    readFields ⟨[], [pyInit, pyInit]⟩ 1 = [] ∧
    readFields (appendField ⟨[], [pyInit, pyInit]⟩ 0 "f") 1 = ["f"] ∧
    readFields (clear_object (appendField ⟨[], [pyInit, pyInit]⟩ 0 "f") 0) 1 = [] := by
  refine ⟨by decide, by decide, by decide⟩

/-- C3 (amended): the `__init__`-assigned state (`placements`, `node_map`
and the scalar attributes) really is per-instance — `clear_object`,
`correct_decoding`, the loader's `fields` assignment and even an in-place
`fields.append` through instance `i` leave the entire instance record of
any other `j` unchanged — and the per-instance assignments
(`correct_decoding`'s `self.fields = ...`, treesapp.py 4407) also leave
`j`'s observable `fields` unchanged.  But `fields` itself remains a
type-level attribute: `j`'s observable `fields` is only guaranteed stable
under in-place mutations through `i` (`clear_object`, `append`) when `i`
carries its own instance-level `fields` binding; without one the
counterexample applies. -/
theorem itoljplace_per_instance_state_isolated (w : PyWorld) (i j : ℕ) (v : String)
    (hij : i ≠ j) :
    (clear_object w i).insts.get? j = w.insts.get? j ∧
    (correct_decoding w i).insts.get? j = w.insts.get? j ∧
    (assignFields w i [v]).insts.get? j = w.insts.get? j ∧
    (appendField w i v).insts.get? j = w.insts.get? j ∧
    readFields (correct_decoding w i) j = readFields w j ∧
    readFields (assignFields w i [v]) j = readFields w j ∧
    (∀ inst, w.insts.get? i = some inst → inst.fieldsShadow.isSome = true →
       readFields (clear_object w i) j = readFields w j ∧
       readFields (appendField w i v) j = readFields w j) := by
  rcases hi : w.insts.get? i with _ | inst
  · refine ⟨?_, ?_, ?_, ?_, ?_, ?_, ?_⟩
    · unfold clear_object
      rw [hi]
    · unfold correct_decoding
      rw [hi]
    · unfold assignFields
      rw [hi]
    · unfold appendField
      rw [hi]
    · unfold correct_decoding
      rw [hi]
    · unfold assignFields
      rw [hi]
    · intro inst hinst
      exact absurd hinst (by simp)
  · have hset : ∀ (inst' : PyInstance), (w.insts.set i inst').get? j = w.insts.get? j :=
      fun inst' => get?_set_ne w.insts i j inst' hij
    have hclear : (clear_object w i).insts.get? j = w.insts.get? j := by
      unfold clear_object
      rw [hi]
      exact hset _
    have hcd : (correct_decoding w i).insts.get? j = w.insts.get? j := by
      unfold correct_decoding
      rw [hi]
      exact hset _
    have hasn : (assignFields w i [v]).insts.get? j = w.insts.get? j := by
      unfold assignFields
      rw [hi]
      exact hset _
    have happ : (appendField w i v).insts.get? j = w.insts.get? j := by
      unfold appendField
      simp only [hi]
      rcases hsh : inst.fieldsShadow with _ | l
      · rfl
      · exact hset _
    have hcdf : (correct_decoding w i).classFields = w.classFields := by
      unfold correct_decoding
      rw [hi]
    have hasnf : (assignFields w i [v]).classFields = w.classFields := by
      unfold assignFields
      rw [hi]
    refine ⟨hclear, hcd, hasn, happ, ?_, ?_, ?_⟩
    · unfold readFields
      rw [hcd, hcdf]
    · unfold readFields
      rw [hasn, hasnf]
    · intro inst' hinst hsome
      have hinst' : inst = inst' := Option.some.inj hinst
      subst hinst'
      rcases hsh : inst.fieldsShadow with _ | l
      · rw [hsh] at hsome
        cases hsome
      · constructor
        · have hclf : (clear_object w i).classFields = w.classFields := by
            unfold clear_object
            simp only [hi, hsh]
          unfold readFields
          rw [hclear, hclf]
        · have happf : (appendField w i v).classFields = w.classFields := by
            unfold appendField
            simp only [hi, hsh]
          unfold readFields
          rw [happ, happf]

/-- C3 (witness): instance isolation applied in `wPyWorld`, where instance
0 owns an instance-level `fields` binding, mutating instance 0 and reading
instance 1. -/
theorem itoljplace_per_instance_state_isolated_witness :
    (0 : ℕ) ≠ 1 ∧
    (clear_object wPyWorld 0).insts.get? 1 = wPyWorld.insts.get? 1 ∧
    readFields (correct_decoding wPyWorld 0) 1 = readFields wPyWorld 1 ∧
    readFields (clear_object wPyWorld 0) 1 = readFields wPyWorld 1 :=
  ⟨by decide,
   (itoljplace_per_instance_state_isolated wPyWorld 0 1 "x" (by decide)).1,
   (itoljplace_per_instance_state_isolated wPyWorld 0 1 "x" (by decide)).2.2.2.2.1,
   ((itoljplace_per_instance_state_isolated wPyWorld 0 1 "x" (by decide)).2.2.2.2.2.2
       wInstA rfl (by decide)).1⟩

end TreeSAPP
